import Mathlib

/-!
Verification development for the `fluctus` repository: three command-line
audio scripts (`freqamp.py`, `rnnoisetest.py`, `sounddevicetest.py`).

The per-block signal path of `freqamp.py` is embedded over an explicit
IEEE-754-style value domain `FV` (a rational together with `nan`, `+inf`,
`-inf`), because the claims about clipping quantify over arbitrary — also
non-finite — float inputs.  Arithmetic on finite values is exact rational
arithmetic (rounding is not modelled); the special-value propagation rules
(`nan` absorbs, `inf - inf = nan`, `0 * inf = nan`, ...) follow IEEE 754,
which is what NumPy/SciPy implement.
-/

/-- Abstract float value: a rational number, or one of the IEEE special
values `nan`, `+inf`, `-inf`.  Finite arithmetic is exact. -/
inductive FV where
  | nan : FV
  | pinf : FV
  | ninf : FV
  | fin (q : ℚ) : FV
deriving DecidableEq

namespace FV

/-- IEEE negation. -/
def neg : FV → FV
  | nan => nan
  | pinf => ninf
  | ninf => pinf
  | fin q => fin (-q)

/-- IEEE addition: `nan` absorbs, opposite infinities give `nan`. -/
def add : FV → FV → FV
  | nan, _ => nan
  | _, nan => nan
  | pinf, ninf => nan
  | ninf, pinf => nan
  | pinf, _ => pinf
  | _, pinf => pinf
  | ninf, _ => ninf
  | _, ninf => ninf
  | fin p, fin q => fin (p + q)

/-- IEEE multiplication: `nan` absorbs, `0 * inf = nan`, signs as usual. -/
def mul : FV → FV → FV
  | nan, _ => nan
  | _, nan => nan
  | pinf, pinf => pinf
  | pinf, ninf => ninf
  | ninf, pinf => ninf
  | ninf, ninf => pinf
  | pinf, fin q => if q = 0 then nan else if 0 < q then pinf else ninf
  | fin q, pinf => if q = 0 then nan else if 0 < q then pinf else ninf
  | ninf, fin q => if q = 0 then nan else if 0 < q then ninf else pinf
  | fin q, ninf => if q = 0 then nan else if 0 < q then ninf else pinf
  | fin p, fin q => fin (p * q)

/-- IEEE subtraction, via negation. -/
def sub (u v : FV) : FV := add u (neg v)

/-- IEEE division (the zero divisor is treated as `+0`; a signed zero is
collapsed to plain `0`). -/
def div : FV → FV → FV
  | nan, _ => nan
  | _, nan => nan
  | pinf, pinf => nan
  | pinf, ninf => nan
  | ninf, pinf => nan
  | ninf, ninf => nan
  | pinf, fin q => if 0 ≤ q then pinf else ninf
  | ninf, fin q => if 0 ≤ q then ninf else pinf
  | fin _, pinf => fin 0
  | fin _, ninf => fin 0
  | fin p, fin q =>
      if q = 0 then (if p = 0 then nan else if 0 < p then pinf else ninf)
      else fin (p / q)

/-- Is this value finite (an actual number)? -/
def isFin : FV → Bool
  | fin _ => true
  | _ => false

/-- `np.maximum x lo` for a rational scalar bound `lo`: `nan` propagates. -/
def fvmax (lo : ℚ) : FV → FV
  | nan => nan
  | pinf => pinf
  | ninf => fin lo
  | fin q => fin (if lo ≤ q then q else lo)

/-- `np.minimum x hi` for a rational scalar bound `hi`: `nan` propagates. -/
def fvmin (hi : ℚ) : FV → FV
  | nan => nan
  | pinf => fin hi
  | ninf => ninf
  | fin q => fin (if q ≤ hi then q else hi)

/-- `np.clip(v, -1.0, 1.0)` as used at `freqamp.py` line 93: NumPy clips by
`minimum(maximum(v, lo), hi)`, so a `nan` input propagates to the output
while `±inf` is clamped to `±1`. -/
def clip (v : FV) : FV := fvmin 1 (fvmax (-1) v)

/-- The output sample is an actual number inside `[-1, 1]`. -/
def inUnit : FV → Prop
  | fin q => -1 ≤ q ∧ q ≤ 1
  | _ => False

instance : DecidablePred inUnit := fun v =>
  match v with
  | nan => isFalse (fun h => h)
  | pinf => isFalse (fun h => h)
  | ninf => isFalse (fun h => h)
  | fin _ => inferInstanceAs (Decidable (_ ∧ _))

end FV

/-!
`scipy.signal.lfilter(b, a, x)` in direct form II transposed, as used at
`freqamp.py` line 90.  Per SciPy's documented semantics: the coefficient
vectors are normalized by `a[0]`, the filter state `z` has length
`max |b| |a| - 1`, and a call without the `zi` argument starts from the
all-zero state ("initial rest").  One recurrence step computes
`y[m] = b[0]*x[m] + z[0][m-1]` and
`z[i][m] = b[i+1]*x[m] + z[i+1][m-1] - a[i+1]*y[m]`
(the entry past the end of `z` is taken to be `0`).
-/

/-- One state update of the direct form II transposed recurrence.  `bs` and
`aas` are the coefficient tails `b[1:]`, `a[1:]`; `ztl` is the old state
shifted by one (`z[1:]`), so its head is the `z[i+1]` entry. -/
def stepZ (x y : FV) : List FV → List FV → List FV → List FV
  | b1 :: bs, a1 :: aas, ztl =>
      FV.sub (FV.add (FV.mul b1 x) (ztl.headD (FV.fin 0))) (FV.mul a1 y)
        :: stepZ x y bs aas ztl.tail
  | _, _, _ => []

/-- Run the normalized recurrence over the samples, threading the state. -/
def lfApply (bn an : List FV) : List FV → List FV → List FV
  | _, [] => []
  | z, x :: xs =>
      let y := FV.add (FV.mul (bn.headD (FV.fin 0)) x) (z.headD (FV.fin 0))
      y :: lfApply bn an (stepZ x y bn.tail an.tail z.tail) xs

/-- `lfilter` with an explicit initial state `zi` (SciPy's `zi` argument):
coefficients are normalized by `a[0]` first. -/
def lfilterZi (b a zi xs : List FV) : List FV :=
  let a0 := a.headD (FV.fin 0)
  lfApply (b.map (fun c => FV.div c a0)) (a.map (fun c => FV.div c a0)) zi xs

/-- The all-zero initial state of length `max |b| |a| - 1`. -/
def zeroState (b a : List FV) : List FV :=
  List.replicate (max b.length a.length - 1) (FV.fin 0)

/-- `scipy.signal.lfilter(b, a, xs)` without `zi`: zero initial conditions
on every call. -/
def lfilter (b a xs : List FV) : List FV := lfilterZi b a (zeroState b a) xs

/-- The `callback` of `freqamp.py` (lines 82-95) on one block: the block is
filtered along axis 0 — i.e. each channel independently — and then clipped
elementwise to `[-1.0, 1.0]`; the result is written to `outdata`.  A block
is represented channel-major: a list of channels, each a list of samples. -/
def faCallback (b a : List FV) (blk : List (List FV)) : List (List FV) :=
  blk.map (fun ch => (lfilter b a ch).map FV.clip)

/-- Filtering one channel of one block alone, starting from the all-zero
filter state, then clipping — what a single `callback` invocation does to
a channel. -/
def faFilterFresh (b a : List FV) (ch : List FV) : List FV :=
  (lfilterZi b a (zeroState b a) ch).map FV.clip

/-- The stream invokes `callback` once per block, in order. -/
def faRunStream (b a : List FV) (blocks : List (List (List FV))) :
    List (List (List FV)) :=
  blocks.map (faCallback b a)

/-!
`high_frequency_boost_filter` (`freqamp.py` lines 66-77).  The Butterworth
designer itself is `scipy.signal.butter`, an outer-boundary library call;
it is abstracted as a parameter `butter2hp` standing for
`signal.butter(2, wn, btype='high', analog=False)`, a function from the
normalized cutoff to the `(b, a)` coefficient pair.  Coefficient scaling by
the gain (`b *= gain`) is exact rational arithmetic here; in the script the
gain is `2.0`, for which binary floating-point scaling is also exact.
-/

/-- `GAIN_HIGH_FREQUENCY` (`freqamp.py` line 60). -/
def GAIN_HIGH_FREQUENCY : ℚ := 2

/-- `CUTOFF_FREQUENCY` (`freqamp.py` line 61). -/
def CUTOFF_FREQUENCY : ℚ := 2000

/-- `high_frequency_boost_filter(fs, gain, cutoff)` (`freqamp.py` lines
66-74): normalize the cutoff by the Nyquist frequency `0.5 * fs`, design
the order-2 high-pass filter, then scale only `b` by the gain. -/
def high_frequency_boost_filter (butter2hp : ℚ → List ℚ × List ℚ)
    (fs gain cutoff : ℚ) : List ℚ × List ℚ :=
  let nyquist := (1 / 2) * fs
  let normalized_cutoff := cutoff / nyquist
  let ba := butter2hp normalized_cutoff
  (ba.1.map (fun c => c * gain), ba.2)

/-- The single module-level coefficient computation `b, a =
high_frequency_boost_filter(args.samplerate)` (`freqamp.py` line 77),
using the default gain and cutoff. -/
def startupCoeffs (butter2hp : ℚ → List ℚ × List ℚ) (fs : ℚ) :
    List ℚ × List ℚ :=
  high_frequency_boost_filter butter2hp fs GAIN_HIGH_FREQUENCY CUTOFF_FREQUENCY

/-!
`rnnoisetest.py` callback (lines 153-179).  Blocks are modelled as NumPy
arrays of rationals that are either 1-D (`frames`) or 2-D
(`frames x channels`, row-major).  The denoiser `pyrnnoise.RNNoise
.process_frame` is an outer-boundary per-channel transform, abstracted as a
parameter `den`; NumPy's column assignment
`denoised_audio[:, ch] = den(indata[:, ch])` requires `den` to preserve the
frame count, which the theorems take as a hypothesis.
-/

/-- A NumPy array shape: 1-D with `n` entries, or 2-D `r x c`. -/
inductive NDShape where
  | one (n : ℕ)
  | two (r c : ℕ)
deriving DecidableEq

/-- A 1-D or 2-D block of samples.  A 2-D block is a list of rows
(frames), each row listing the channels. -/
inductive NDArr where
  | a1 (xs : List ℚ)
  | a2 (m : List (List ℚ))
deriving DecidableEq

/-- The shape of a block (for a 2-D block, the column count is read off
the first row). -/
def NDArr.shape : NDArr → NDShape
  | a1 xs => .one xs.length
  | a2 m => .two m.length (m.headD []).length

/-- All rows of a 2-D block have the same length (NumPy arrays are
rectangular). -/
def NDArr.wfB : NDArr → Bool
  | a1 _ => true
  | a2 m => m.all (fun row => row.length == (m.headD []).length)

/-- A 2-D block has at least one frame and one channel. -/
def NDArr.posB : NDArr → Bool
  | a1 _ => true
  | a2 m => decide (0 < m.length) && decide (0 < (m.headD []).length)

/-- Row-major (C-order) flattening of a block. -/
def NDArr.flat : NDArr → List ℚ
  | a1 xs => xs
  | a2 m => m.flatten

/-- Cut a flat sample list into rows of `c` entries (fuel-driven; the fuel
is instantiated with the list length, which suffices because every step
consumes at least one element). -/
def chunkGo : ℕ → ℕ → List ℚ → List (List ℚ)
  | 0, _, _ => []
  | _, _, [] => []
  | n + 1, c, x :: xs => (x :: xs).take c :: chunkGo n c ((x :: xs).drop c)

/-- Rows of `c` entries of a flat list. -/
def chunkRows (c : ℕ) (xs : List ℚ) : List (List ℚ) := chunkGo xs.length c xs

/-- `np.reshape` of flat (C-order) data to a target shape: defined exactly
when the total element counts agree, an error (`none`) otherwise. -/
def reshapeTo (sh : NDShape) (xs : List ℚ) : Option NDArr :=
  match sh with
  | .one n => if xs.length = n then some (.a1 xs) else none
  | .two r c => if xs.length = r * c then some (.a2 (chunkRows c xs)) else none

/-- Column `ch` of a 2-D block: `indata[:, ch]`. -/
def getCol (m : List (List ℚ)) (ch : ℕ) : List ℚ :=
  m.map (fun row => row.getD ch 0)

/-- The denoising loop of the callback (`rnnoisetest.py` lines 170-172):
every channel (column) is passed through `den` and written back into an
array of the same 2-D layout. -/
def denoiseAllCh (den : List ℚ → List ℚ) (m : List (List ℚ)) :
    List (List ℚ) :=
  let nch := (m.headD []).length
  let cols := (List.range nch).map (fun ch => den (getCol m ch))
  (List.range m.length).map (fun i => cols.map (fun col => col.getD i 0))

/-- The `callback` of `rnnoisetest.py` (lines 153-179): a 1-D (mono) block
is reshaped to a `frames x 1` column first (`indata.reshape(-1, 1)`); each
channel is denoised; a mono result is flattened back to 1-D; finally the
result is written as `outdata[:] = denoised.reshape(outdata.shape)`.
Reshaping a mono-flattened or a 2-D result both reshape the same row-major
flat data, so the final step is modelled uniformly as a reshape of the
flattening to `outdata`'s shape. -/
def rnCallback (den : List ℚ → List ℚ) (indata : NDArr) (outShape : NDShape) :
    Option NDArr :=
  let work :=
    match indata with
    | .a1 xs => xs.map (fun x => [x])
    | .a2 m => m
  reshapeTo outShape (denoiseAllCh den work).flatten

/-!
`sounddevicetest.py` record path.  The callback (lines 239-242) enqueues a
copy of every captured block into `q = queue.Queue()`; the writer loop
(lines 262-263) runs `file.write(q.get())` forever.  `queue.Queue` is the
CPython standard-library FIFO; per its documented semantics `put` appends
at the tail, `get` removes from the head, and `put` blocks exactly when
`maxsize > 0` and the queue already holds `maxsize` items —
`queue.Queue()` has `maxsize = 0`, meaning unbounded.
-/

/-- FIFO enqueue: append at the tail. -/
def qput (q : List α) (x : α) : List α := q ++ [x]

/-- FIFO dequeue: take from the head (`none` models `get` finding the
queue empty and blocking). -/
def qget : List α → Option (α × List α)
  | [] => none
  | x :: rest => some (x, rest)

/-- The synthetic producer: the callback fires once per captured block, in
capture order, enqueueing each block. -/
def enqueueAll (blocks q : List α) : List α := blocks.foldl qput q

/-- The file-writer loop, run for `n` iterations: each iteration dequeues
one block and appends it to the file.  Returns the file contents and the
remaining queue. -/
def drainLoop : ℕ → List α → List α → List α × List α
  | 0, q, written => (written, q)
  | n + 1, q, written =>
      match qget q with
      | none => (written, q)
      | some (x, q') => drainLoop n q' (written ++ [x])

/-- A CPython `queue.Queue`: a capacity bound (`0` = unbounded) plus the
FIFO contents. -/
structure PyQueue (α : Type) where
  maxsize : ℕ
  items : List α

/-- `q = queue.Queue()` (`sounddevicetest.py` line 236): default
`maxsize = 0`, i.e. no capacity bound. -/
def mkQueue (α : Type) : PyQueue α := ⟨0, []⟩

/-- Would `put` block?  CPython `Queue.put(item, block=True)` waits exactly
while `maxsize > 0` and `qsize >= maxsize`. -/
def putWouldBlock (q : PyQueue α) : Bool :=
  decide (0 < q.maxsize) && decide (q.maxsize ≤ q.items.length)

/-- A (non-blocking) `put`: append at the tail; the capacity bound is
unchanged. -/
def pyPut (q : PyQueue α) (x : α) : PyQueue α := ⟨q.maxsize, q.items ++ [x]⟩

/-- The record callback `q.put(indata.copy())` (`sounddevicetest.py`
line 242). -/
def recCallback (q : PyQueue α) (indata : α) : PyQueue α := pyPut q indata

/-!
The record-then-denoise post-pass (`sounddevicetest.py` lines 265-295).
The output path is `args.filename.replace(".wav", "_denoised.wav")`
(line 269): Python `str.replace` substitutes every non-overlapping
occurrence, scanning left to right.  The denoised file is opened with
`subtype='PCM_16'` (line 290) regardless of the `--subtype` the recording
was made with.  Filenames are modelled as character lists.
-/

/-- The pattern `".wav"` of the `replace` call. -/
def wavPat : List Char := ['.', 'w', 'a', 'v']

/-- The replacement `"_denoised.wav"` of the `replace` call. -/
def denoisedRep : List Char := "_denoised.wav".toList

/-- Python `s.replace(".wav", "_denoised.wav")`: scan left to right,
substituting every non-overlapping occurrence (fuel-driven; fuel = length
of the remaining text suffices since every step consumes at least one
character). -/
def pyReplaceGo : ℕ → List Char → List Char
  | _, [] => []
  | 0, s => s
  | n + 1, c :: rest =>
      if wavPat.isPrefixOf (c :: rest) then
        denoisedRep ++ pyReplaceGo n ((c :: rest).drop 4)
      else c :: pyReplaceGo n rest

/-- `denoised_filename = args.filename.replace(".wav", "_denoised.wav")`
(`sounddevicetest.py` line 269). -/
def denoisedFilename (s : List Char) : List Char := pyReplaceGo s.length s

/-- Does `".wav"` occur anywhere in the string? -/
def occursWav : List Char → Bool
  | [] => false
  | c :: rest => wavPat.isPrefixOf (c :: rest) || occursWav rest

/-- The file-write the post-pass performs: target path and sound-file
subtype of `sf.SoundFile(denoised_filename, 'w', ..., subtype='PCM_16')`
(`sounddevicetest.py` lines 289-290); mode `'w'` truncates an existing
file at the target path. -/
structure PostPassWrite where
  target : List Char
  subtype : String
deriving DecidableEq

/-- The post-pass of the `KeyboardInterrupt` handler: derive the output
path from the recording filename and write with the fixed `PCM_16`
subtype. -/
def recordPostPass (filename : List Char) : PostPassWrite :=
  ⟨denoisedFilename filename, "PCM_16"⟩

/-- The path the specification describes: `_denoised` inserted before the
(final) extension — the stem up to the last `'.'`, then `_denoised`, then
the extension; a name without a dot gets `_denoised` appended.  This
definition follows the spec's words, for comparison with
`denoisedFilename`, which is translated from the code. -/
def insertBeforeExt (s : List Char) : List Char :=
  if '.' ∈ s then
    let dotIdx := s.length - 1 - s.reverse.indexOf '.'
    s.take dotIdx ++ "_denoised".toList ++ s.drop dotIdx
  else s ++ "_denoised".toList

/-!
Error exit (`freqamp.py` lines 111-112, `rnnoisetest.py` lines 194-195,
`sounddevicetest.py` lines 297-298): `except Exception as e:
parser.exit(type(e).__name__ + ': ' + str(e))`.  Modelled from CPython
semantics: `argparse.ArgumentParser.exit(status=0, message=None)` prints
`message` (if any) to stderr and calls `sys.exit(status)` — so the
formatted string is passed as the *status*; `sys.exit` with a string
argument prints that string to stderr and terminates with exit code 1.
-/

/-- An argument `sys.exit` can receive here: an integer code or a
message string. -/
inductive PyStatus where
  | int (n : ℕ)
  | str (s : String)

/-- The observable effect of terminating: the lines written to stderr and
the process exit code. -/
structure ExitEffect where
  stderrLines : List String
  code : ℕ
deriving DecidableEq

/-- CPython `sys.exit(status)`: an integer is the exit code; a string is
printed to stderr and the exit code is 1. -/
def sysExit : PyStatus → ExitEffect
  | .int n => ⟨[], n⟩
  | .str s => ⟨[s], 1⟩

/-- CPython `argparse.ArgumentParser.exit(status, message)`: print
`message` to stderr if present, then `sys.exit(status)`. -/
def parserExit (status : PyStatus) (message : Option String) : ExitEffect :=
  match message with
  | some m =>
      let e := sysExit status
      ⟨m :: e.stderrLines, e.code⟩
  | none => sysExit status

/-- The module-level `except Exception` handler:
`parser.exit(type(e).__name__ + ': ' + str(e))` — the formatted string is
the (sole, positional) `status` argument. -/
def handleStreamError (errName errMsg : String) : ExitEffect :=
  parserExit (.str (errName ++ ": " ++ errMsg)) none

/-!
Device selection (`freqamp.py` line 46, `sounddevicetest.py` line 246):
`sd.query_devices(device)` with a string identifier.  The matching lives
in the third-party `sounddevice` library (`_get_device_id`), modelled from
its behaviour: the query is lowercased and matched as a substring of the
lowercased `"<device name>, <host API name>"` of every candidate device;
no match raises `ValueError('No ... device matching ...')`; more than one
match raises `ValueError('Multiple ... devices found ...')` — except that
when the query equals the full name of exactly one matching device
(case-insensitively), that device is returned.  (The library additionally
splits the query at whitespace and matches the parts in order; for a
single-word substring, as in these claims, that is plain substring
containment, which is what is modelled.)
-/

/-- An enumerated audio device: name and host API name. -/
structure SDDevice where
  name : String
  hostapi : String
deriving DecidableEq

/-- Lowercased character list of a string. -/
def lowerChars (s : String) : List Char := s.toList.map Char.toLower

/-- Is `pat` a contiguous sublist of `s`? -/
def subOcc (pat : List Char) : List Char → Bool
  | [] => pat.isEmpty
  | c :: rest => pat.isPrefixOf (c :: rest) || subOcc pat rest

/-- Does the (lowercased) query occur in the lowercased
`"name, hostapi"` string of the device? -/
def devMatches (qs : String) (d : SDDevice) : Bool :=
  subOcc (lowerChars qs) (lowerChars (d.name ++ ", " ++ d.hostapi))

/-- Does the query equal the device's full name, case-insensitively? -/
def devExact (qs : String) (d : SDDevice) : Bool :=
  lowerChars d.name == lowerChars qs

/-- The devices (with their enumeration indices) the query matches. -/
def matched (qs : String) (devs : List SDDevice) : List (ℕ × SDDevice) :=
  devs.enum.filter (fun p => devMatches qs p.2)

/-- Among the matches, the ones whose full name equals the query. -/
def matchedExact (qs : String) (devs : List SDDevice) : List (ℕ × SDDevice) :=
  (matched qs devs).filter (fun p => devExact qs p.2)

/-- Number of devices the query matches. -/
def matchCount (qs : String) (devs : List SDDevice) : ℕ :=
  (matched qs devs).length

/-- Outcome of resolving a string device identifier. -/
inductive DevResult where
  | found (idx : ℕ)
  | errNotFound
  | errMultiple
deriving DecidableEq

/-- `sounddevice`'s device resolution for a string identifier: error when
nothing matches; the device when exactly one matches; on several matches,
the uniquely exactly-named device if there is one, otherwise an error. -/
def getDeviceId (qs : String) (devs : List SDDevice) : DevResult :=
  match matched qs devs, matchedExact qs devs with
  | [], _ => .errNotFound
  | [p], _ => .found p.1
  | _ :: _ :: _, [e] => .found e.1
  | _ :: _ :: _, _ => .errMultiple

/-!
Theorems.
-/

/-- Enqueueing a sequence of blocks appends them, in order, at the tail. -/
theorem enqueueAll_eq (blocks : List α) :
    ∀ q : List α, enqueueAll blocks q = q ++ blocks := by
  induction blocks with
  | nil => intro q; simp [enqueueAll]
  | cons b bs ih =>
      intro q
      have h := ih (qput q b)
      simp only [enqueueAll, List.foldl_cons] at h ⊢
      simpa [qput] using h

/-- Draining a queue for exactly its length appends its contents, in
order, to the written output and empties the queue. -/
theorem drainLoop_all (l : List α) :
    ∀ written : List α, drainLoop l.length l written = (written ++ l, []) := by
  induction l with
  | nil => intro written; simp [drainLoop]
  | cons x xs ih =>
      intro written
      have h := ih (written ++ [x])
      simp only [List.length_cons, drainLoop, qget] at h ⊢
      simpa using h

/-- Claim C3: for every finite sequence of blocks enqueued by the callback,
the file-writer loop dequeues and writes exactly that sequence in the same
order — FIFO, with no block reordered, dropped, or duplicated (and the
queue is left empty). -/
theorem record_fifo_exact (α : Type) (blocks : List α) :
    drainLoop blocks.length (enqueueAll blocks []) [] = (blocks, []) := by
  rw [enqueueAll_eq blocks []]
  simpa using drainLoop_all (α := α) blocks []

/-- Claim C4: the record callback's `put` never blocks — the queue is
created with `maxsize = 0` (unbounded), so at every queue length the put
succeeds immediately and simply appends, growing the queue without
bound. -/
theorem record_put_never_blocks (α : Type) (items : List α) (x : α) :
    putWouldBlock ⟨(mkQueue α).maxsize, items⟩ = false ∧
    recCallback ⟨(mkQueue α).maxsize, items⟩ x =
      ⟨(mkQueue α).maxsize, items ++ [x]⟩ := by
  refine ⟨?_, rfl⟩
  simp [putWouldBlock, mkQueue]

/-- Claim C5: the frequency-boost callback filters every block with the
filter state reset to zero — the output for the final block of any stream
equals filtering that block alone from the all-zero initial state,
independent of all preceding blocks. -/
theorem fa_stateless_blocks (b a : List FV) (pre : List (List (List FV)))
    (blk : List (List FV)) :
    faRunStream b a (pre ++ [blk]) =
      faRunStream b a pre ++ [blk.map (faFilterFresh b a)] := by
  simp [faRunStream, faCallback, faFilterFresh, lfilter]

/-- Claim C6: the startup coefficient computation normalizes the cutoff by
the Nyquist frequency `0.5 * fs`, hands it to the order-2 high-pass
Butterworth designer, and then scales only the numerator coefficients `b`
by the gain while the denominator coefficients `a` are returned
unchanged. -/
theorem hfb_design_dataflow (butter2hp : ℚ → List ℚ × List ℚ) (fs : ℚ) :
    (startupCoeffs butter2hp fs).1 =
      (butter2hp (CUTOFF_FREQUENCY / ((1 / 2) * fs))).1.map
        (fun c => c * GAIN_HIGH_FREQUENCY) ∧
    (startupCoeffs butter2hp fs).2 =
      (butter2hp (CUTOFF_FREQUENCY / ((1 / 2) * fs))).2 :=
  ⟨rfl, rfl⟩

/-- Claim C8: the module-level `except Exception` handler prints exactly
one line, `<ErrorKind>: <message>`, to stderr and terminates the process
with the non-zero exit status 1 (the formatted string is passed to
`sys.exit`, which prints a string argument and exits with code 1). -/
theorem stream_error_exit (errName errMsg : String) :
    handleStreamError errName errMsg = ⟨[errName ++ ": " ++ errMsg], 1⟩ ∧
    (handleStreamError errName errMsg).code ≠ 0 :=
  ⟨rfl, Nat.one_ne_zero⟩

/-- Finite value whose rational is nonzero (a usable normalizer `a[0]`). -/
def finNZ : FV → Bool
  | .fin q => !(decide (q = 0))
  | _ => false

/-- Exact addition of finite values is finite. -/
theorem FV.isFin_add {u v : FV} (hu : u.isFin = true) (hv : v.isFin = true) :
    (FV.add u v).isFin = true := by
  cases u <;> cases v <;> simp_all [FV.isFin, FV.add]

/-- Exact multiplication of finite values is finite. -/
theorem FV.isFin_mul {u v : FV} (hu : u.isFin = true) (hv : v.isFin = true) :
    (FV.mul u v).isFin = true := by
  cases u <;> cases v <;> simp_all [FV.isFin, FV.mul]

/-- Negation of a finite value is finite. -/
theorem FV.isFin_neg {u : FV} (hu : u.isFin = true) : u.neg.isFin = true := by
  cases u <;> simp_all [FV.isFin, FV.neg]

/-- Exact subtraction of finite values is finite. -/
theorem FV.isFin_sub {u v : FV} (hu : u.isFin = true) (hv : v.isFin = true) :
    (FV.sub u v).isFin = true :=
  FV.isFin_add hu (FV.isFin_neg hv)

/-- Division of a finite value by a finite nonzero value is finite. -/
theorem FV.isFin_div {u : FV} {q : ℚ} (hu : u.isFin = true) (hq : q ≠ 0) :
    (FV.div u (FV.fin q)).isFin = true := by
  cases u <;> simp_all [FV.isFin, FV.div]

/-- The `headD (fin 0)` of an all-finite list is finite. -/
theorem headD_fin {l : List FV} (h : l.all FV.isFin = true) :
    (l.headD (FV.fin 0)).isFin = true := by
  cases l with
  | nil => rfl
  | cons v l => exact (List.all_cons .. ▸ h |> Bool.and_elim_left)

/-- The tail of an all-finite list is all-finite. -/
theorem tail_fin {l : List FV} (h : l.all FV.isFin = true) :
    l.tail.all FV.isFin = true := by
  cases l with
  | nil => rfl
  | cons v l => exact (List.all_cons .. ▸ h |> Bool.and_elim_right)

/-- The filter-state update keeps the state all-finite when the inputs,
output and coefficient tails are finite. -/
theorem stepZ_fin {x y : FV} (hx : x.isFin = true) (hy : y.isFin = true) :
    ∀ bs aas ztl : List FV, bs.all FV.isFin = true → aas.all FV.isFin = true →
      ztl.all FV.isFin = true → (stepZ x y bs aas ztl).all FV.isFin = true := by
  intro bs
  induction bs with
  | nil => intro aas ztl _ _ _; simp [stepZ]
  | cons b1 bs ih =>
      intro aas ztl hb ha hz
      cases aas with
      | nil => simp [stepZ]
      | cons a1 aas =>
          simp only [stepZ, List.all_cons, Bool.and_eq_true] at hb ha ⊢
          refine ⟨FV.isFin_sub (FV.isFin_add (FV.isFin_mul hb.1 hx)
            (headD_fin hz)) (FV.isFin_mul ha.1 hy), ?_⟩
          exact ih aas ztl.tail hb.2 ha.2 (tail_fin hz)

/-- The recurrence maps all-finite coefficients, state and samples to
all-finite outputs. -/
theorem lfApply_fin {bn an : List FV} (hb : bn.all FV.isFin = true)
    (ha : an.all FV.isFin = true) :
    ∀ xs z : List FV, z.all FV.isFin = true → xs.all FV.isFin = true →
      (lfApply bn an z xs).all FV.isFin = true := by
  intro xs
  induction xs with
  | nil => intro z _ _; simp [lfApply]
  | cons x xs ih =>
      intro z hz hxs
      simp only [List.all_cons, Bool.and_eq_true] at hxs
      simp only [lfApply, List.all_cons, Bool.and_eq_true]
      have hy : (FV.add (FV.mul (bn.headD (FV.fin 0)) x)
          (z.headD (FV.fin 0))).isFin = true :=
        FV.isFin_add (FV.isFin_mul (headD_fin hb) hxs.1) (headD_fin hz)
      exact ⟨hy, ih _ (stepZ_fin hxs.1 hy _ _ _ (tail_fin hb) (tail_fin ha)
        (tail_fin hz)) hxs.2⟩

/-- Clipping a finite value lands inside `[-1, 1]`. -/
theorem FV.inUnit_clip {v : FV} (h : v.isFin = true) : FV.inUnit v.clip := by
  cases v with
  | fin q =>
      simp only [FV.clip, FV.fvmax, FV.fvmin, FV.inUnit]
      split_ifs <;> constructor <;> linarith
  | nan => exact absurd h (by simp [FV.isFin])
  | pinf => exact absurd h (by simp [FV.isFin])
  | ninf => exact absurd h (by simp [FV.isFin])

/-- Every output of `lfilter` with all-finite coefficients (and a finite
nonzero `a[0]`) on an all-finite channel is finite: exact rational
arithmetic introduces no special value from finite data. -/
theorem lfilter_fin {b a ch : List FV} (hb : b.all FV.isFin = true)
    (ha : a.all FV.isFin = true) (ha0 : finNZ (a.headD (FV.fin 0)) = true)
    (hch : ch.all FV.isFin = true) :
    (lfilter b a ch).all FV.isFin = true := by
  obtain ⟨q, hq, ha0'⟩ : ∃ q : ℚ, q ≠ 0 ∧ a.headD (FV.fin 0) = FV.fin q := by
    cases h : a.headD (FV.fin 0) <;> rw [h] at ha0 <;>
      simp [finNZ] at ha0
    exact ⟨_, ha0, rfl⟩
  have hmap : ∀ l : List FV, l.all FV.isFin = true →
      (l.map (fun c => FV.div c (a.headD (FV.fin 0)))).all FV.isFin = true := by
    intro l hl
    rw [List.all_eq_true] at hl ⊢
    intro v hv
    rcases List.mem_map.mp hv with ⟨c, hc, rfl⟩
    rw [ha0']
    exact FV.isFin_div (hl c hc) hq
  have hz : (zeroState b a).all FV.isFin = true := by
    rw [List.all_eq_true]
    intro v hv
    rw [List.eq_of_mem_replicate hv]
    rfl
  exact lfApply_fin (hmap b hb) (hmap a ha) ch (zeroState b a) hz hch

/-- Claim C1 (amended): for every input block all of whose samples are
actual finite numbers — with no assumption on their magnitude — every
sample the frequency-boost callback writes lies within `[-1, 1]`.  (The
original claim's "no assumption on finiteness" fails: a `nan` input sample
propagates through the filter and through `np.clip` to a `nan` output
sample, which lies outside `[-1, 1]`; see the counterexample.) -/
theorem fa_clip_in_range (b a : List FV) (blk : List (List FV))
    (hb : b.all FV.isFin = true) (ha : a.all FV.isFin = true)
    (ha0 : finNZ (a.headD (FV.fin 0)) = true)
    (hx : blk.all (fun ch => ch.all FV.isFin) = true) :
    ∀ ch ∈ faCallback b a blk, ∀ v ∈ ch, FV.inUnit v := by
  intro ch hch v hv
  rcases List.mem_map.mp hch with ⟨ch0, hch0, rfl⟩
  rcases List.mem_map.mp hv with ⟨w, hw, rfl⟩
  have hch0f : ch0.all FV.isFin = true := List.all_eq_true.mp hx ch0 hch0
  have hall := lfilter_fin hb ha ha0 hch0f
  exact FV.inUnit_clip (List.all_eq_true.mp hall w hw)

/-- Witness for claim C1's amended theorem at a concrete block and
concrete coefficients: filtering the one-channel, one-sample block `[[9]]`
with `b = [1]`, `a = [1]` yields a block whose sample is inside `[-1, 1]`.
-/
theorem fa_clip_in_range_wit :
    FV.inUnit (((faCallback [FV.fin 1] [FV.fin 1] [[FV.fin 9]]).headD
      []).headD (FV.fin 0)) := by
  have h := fa_clip_in_range [FV.fin 1] [FV.fin 1] [[FV.fin 9]]
    (by decide) (by decide) (by decide) (by decide)
  have he : faCallback [FV.fin 1] [FV.fin 1] [[FV.fin 9]] = [[FV.fin 1]] := by
    norm_num [faCallback, lfilter, lfilterZi, zeroState, lfApply, stepZ,
      FV.mul, FV.add, FV.div, FV.clip, FV.fvmax, FV.fvmin]
  rw [he]
  exact h [FV.fin 1] (by rw [he]; exact List.mem_singleton.mpr rfl)
    (FV.fin 1) (List.mem_singleton.mpr rfl)

/-- Counterexample to claim C1 as stated: with representative finite
filter coefficients (the double-rounded Butterworth coefficients of the
script, `a[0] = 1`), a block containing the single sample `nan` makes the
callback write the sample `nan`, which does not lie within `[-1, 1]` — so
the clipping guarantee does not hold "with no assumption on the magnitude
or finiteness of the input samples". -/
theorem fa_clip_claim_cex :
    faCallback [FV.fin (16347/10000), FV.fin (-16347/5000), FV.fin (16347/10000)]
        [FV.fin 1, FV.fin (-16011/10000), FV.fin (66836/100000)]
        [[FV.nan]] = [[FV.nan]] ∧
      ¬ FV.inUnit FV.nan :=
  ⟨by decide, fun h => h⟩

/-- The denoising loop returns a matrix with the same number of rows as
its input and all rows of the channel-count length — independent of the
denoiser (NumPy's column assignment additionally requires the denoiser to
preserve the frame count, or it raises). -/
theorem denoiseAllCh_shape (den : List ℚ → List ℚ) (m : List (List ℚ)) :
    (denoiseAllCh den m).length = m.length ∧
    ∀ row ∈ denoiseAllCh den m, row.length = (m.headD []).length := by
  constructor
  · simp [denoiseAllCh]
  · intro row hrow
    simp only [denoiseAllCh, List.mem_map, List.mem_range] at hrow
    obtain ⟨i, _, rfl⟩ := hrow
    simp

/-- Flattening a matrix whose rows all have length `c` gives
`rows * c` entries. -/
theorem flatten_const_rows {rows : List (List ℚ)} {c : ℕ}
    (h : ∀ row ∈ rows, row.length = c) :
    rows.flatten.length = rows.length * c := by
  induction rows with
  | nil => simp
  | cons r rs ih =>
      simp only [List.flatten_cons, List.length_append, List.length_cons]
      rw [h r (by simp), ih (fun row hr => h row (by simp [hr]))]
      ring

/-- Cutting the flattening of a matrix with constant row length `c > 0`
back into `c`-element rows recovers the matrix. -/
theorem chunkGo_flatten {c : ℕ} (hc : 0 < c) :
    ∀ (rows : List (List ℚ)) (fuel : ℕ), (∀ row ∈ rows, row.length = c) →
      rows.flatten.length ≤ fuel → chunkGo fuel c rows.flatten = rows := by
  intro rows
  induction rows with
  | nil => intro fuel _ _; cases fuel <;> simp [chunkGo]
  | cons r rs ih =>
      intro fuel hlen hfuel
      have hr : r.length = c := hlen r (by simp)
      have hflat := flatten_const_rows hlen
      cases fuel with
      | zero =>
          exfalso
          have hpos0 : 0 < (r :: rs).flatten.length := by
            simp only [List.flatten_cons, List.length_append]
            omega
          omega
      | succ n =>
          obtain ⟨x, rtail, rfl⟩ : ∃ x rtail, r = x :: rtail := by
            cases r with
            | nil => simp at hr; omega
            | cons x rtail => exact ⟨x, rtail, rfl⟩
          simp only [List.flatten_cons, List.cons_append] at hfuel ⊢
          show chunkGo (n + 1) c (x :: (rtail ++ rs.flatten)) = _
          simp only [chunkGo]
          rw [show x :: (rtail ++ rs.flatten) = (x :: rtail) ++ rs.flatten from rfl,
            List.take_left' hr, List.drop_left' hr]
          refine congrArg _ (ih n (fun row hrow => hlen row (by simp [hrow])) ?_)
          simp only [List.length_append, List.length_cons] at hfuel
          omega

/-- `chunkRows` version of `chunkGo_flatten` (fuel = exact length). -/
theorem chunkRows_flatten {c : ℕ} (hc : 0 < c) (rows : List (List ℚ))
    (h : ∀ row ∈ rows, row.length = c) :
    chunkRows c rows.flatten = rows :=
  chunkGo_flatten hc rows _ h le_rfl

/-- Claim C2: the denoise callback writes a block of exactly the shape of
the input block — a 1-D mono block yields a 1-D block (the reshape to 2-D
for the denoiser is undone), and a rectangular 2-D block yields a 2-D
block of the same frames-by-channels shape — whenever the denoiser
preserves the frame count (which NumPy's column assignment enforces) and
a 2-D block is rectangular with at least one frame and channel. -/
theorem rn_shape_preserved (den : List ℚ → List ℚ) (indata : NDArr)
    (hden : ∀ v, (den v).length = v.length)
    (hwf : indata.wfB = true) (hpos : indata.posB = true) :
    ∃ out : NDArr, rnCallback den indata indata.shape = some out ∧
      out.shape = indata.shape := by
  cases indata with
  | a1 xs =>
      cases xs with
      | nil =>
          exact ⟨.a1 [], by simp [rnCallback, denoiseAllCh, reshapeTo,
            NDArr.shape], rfl⟩
      | cons x xs' =>
          have hsh := denoiseAllCh_shape den ((x :: xs').map (fun v => [v]))
          have hrows : ∀ row ∈ denoiseAllCh den ((x :: xs').map (fun v => [v])),
              row.length = 1 := by
            intro row hrow
            simpa using hsh.2 row hrow
          have hlen : (denoiseAllCh den ((x :: xs').map (fun v => [v]))).flatten.length
              = (x :: xs').length := by
            rw [flatten_const_rows hrows, hsh.1]
            simp
          refine ⟨.a1 (denoiseAllCh den ((x :: xs').map (fun v => [v]))).flatten,
            ?_, ?_⟩
          · show reshapeTo (NDArr.a1 (x :: xs')).shape
              (denoiseAllCh den ((x :: xs').map (fun v => [v]))).flatten = _
            simp only [NDArr.shape, reshapeTo]
            rw [if_pos hlen]
          · simp only [NDArr.shape]
            rw [hlen]
  | a2 m =>
      simp only [NDArr.posB, Bool.and_eq_true, decide_eq_true_eq] at hpos
      obtain ⟨hr, hc⟩ := hpos
      have hwf' : ∀ row ∈ m, row.length = (m.headD []).length := by
        simp only [NDArr.wfB, List.all_eq_true, beq_iff_eq] at hwf
        exact hwf
      have hsh := denoiseAllCh_shape den m
      have hlen : (denoiseAllCh den m).flatten.length =
          m.length * (m.headD []).length := by
        rw [flatten_const_rows hsh.2, hsh.1]
      have hchunk : chunkRows (m.headD []).length (denoiseAllCh den m).flatten
          = denoiseAllCh den m := chunkRows_flatten hc _ hsh.2
      refine ⟨.a2 (denoiseAllCh den m), ?_, ?_⟩
      · show reshapeTo (NDArr.a2 m).shape (denoiseAllCh den m).flatten = _
        simp only [NDArr.shape, reshapeTo]
        rw [if_pos hlen, hchunk]
      · have hne : denoiseAllCh den m ≠ [] := by
          intro h
          rw [h] at hsh
          simp at hsh
          omega
        obtain ⟨row0, rest, hrows0⟩ : ∃ row0 rest,
            denoiseAllCh den m = row0 :: rest := by
          cases hd : denoiseAllCh den m with
          | nil => exact absurd hd hne
          | cons r0 rs => exact ⟨r0, rs, rfl⟩
        have h0 : row0.length = (m.headD []).length :=
          hsh.2 row0 (by simp [hrows0])
        have h1 : (denoiseAllCh den m).length = m.length := hsh.1
        rw [hrows0] at h1 ⊢
        simp only [NDArr.shape, List.headD_cons]
        rw [h1, h0]

/-- Witness for claim C2 at a concrete rectangular stereo block and the
identity denoiser. -/
theorem rn_shape_preserved_wit :
    ∃ out : NDArr, rnCallback (fun v => v) (NDArr.a2 [[1, 0], [0, 1]])
        (NDArr.a2 [[1, 0], [0, 1]]).shape = some out ∧
      out.shape = (NDArr.a2 [[1, 0], [0, 1]]).shape :=
  rn_shape_preserved (fun v => v) (NDArr.a2 [[1, 0], [0, 1]])
    (fun _ => rfl) (by decide) (by decide)

/-- No occurrence of `".wav"` can straddle the boundary between a prefix
and an appended `".wav"`: if the pattern does not occur in `c :: stem`,
it is not a prefix of `c :: stem ++ ".wav"` either (the characters `w`,
`a`, `v` of the appended pattern cannot double as its leading dot). -/
theorem wavPat_no_straddle (c : Char) (stem : List Char)
    (h : occursWav (c :: stem) = false) :
    wavPat.isPrefixOf (c :: stem ++ wavPat) = false := by
  rcases stem with _ | ⟨d, _ | ⟨e, _ | ⟨f, rest⟩⟩⟩
  · show (('.' == c) && List.isPrefixOf ['w', 'a', 'v'] wavPat) = false
    rw [show List.isPrefixOf ['w', 'a', 'v'] wavPat = false from by decide]
    exact Bool.and_false _
  · show (('.' == c) && (('w' == d) &&
      List.isPrefixOf ['a', 'v'] wavPat)) = false
    rw [show List.isPrefixOf ['a', 'v'] wavPat = false from by decide]
    rw [Bool.and_false]
    exact Bool.and_false _
  · show (('.' == c) && (('w' == d) && (('a' == e) &&
      List.isPrefixOf ['v'] wavPat))) = false
    rw [show List.isPrefixOf ['v'] wavPat = false from by decide]
    rw [Bool.and_false, Bool.and_false]
    exact Bool.and_false _
  · show List.isPrefixOf wavPat (c :: d :: e :: f :: (rest ++ wavPat)) = false
    simp only [occursWav, Bool.or_eq_false_iff] at h
    have h1 := h.1
    simp only [wavPat, List.isPrefixOf_cons₂, List.isPrefixOf_nil_left] at h1 ⊢
    exact h1

/-- Replacement leaves the empty string empty, whatever the fuel. -/
theorem pyReplaceGo_nil (fuel : ℕ) : pyReplaceGo fuel [] = [] := by
  cases fuel <;> rfl

/-- Replacing in `stem ++ ".wav"` when the pattern does not occur in
`stem`: only the final `".wav"` is replaced. -/
theorem pyReplaceGo_append_wav :
    ∀ stem : List Char, occursWav stem = false → ∀ fuel : ℕ,
      stem.length + 4 ≤ fuel →
      pyReplaceGo fuel (stem ++ wavPat) = stem ++ denoisedRep := by
  intro stem
  induction stem with
  | nil =>
      intro _ fuel hfuel
      obtain ⟨n, rfl⟩ : ∃ n, fuel = n + 1 := ⟨fuel - 1, by omega⟩
      show pyReplaceGo (n + 1) ('.' :: ['w', 'a', 'v']) = denoisedRep
      simp only [pyReplaceGo]
      rw [if_pos (by decide)]
      rw [show List.drop 4 ['.', 'w', 'a', 'v'] = ([] : List Char) from rfl]
      rw [pyReplaceGo_nil, List.append_nil]
  | cons c stem' ih =>
      intro h fuel hfuel
      obtain ⟨n, rfl⟩ : ∃ n, fuel = n + 1 := ⟨fuel - 1, by omega⟩
      have hocc' : occursWav stem' = false := by
        simp only [occursWav, Bool.or_eq_false_iff] at h
        exact h.2
      have hs := wavPat_no_straddle c stem' h
      simp only [List.cons_append, pyReplaceGo]
      rw [if_neg (by simp only [List.cons_append] at hs; simp [hs])]
      simp only [List.append_eq]
      rw [ih hocc' n (by simp only [List.length_cons] at hfuel; omega)]

/-- `denoised_filename` for a name `stem ++ ".wav"` whose stem is free of
the pattern: exactly the final extension is replaced. -/
theorem denoisedFilename_suffix (stem : List Char)
    (h : occursWav stem = false) :
    denoisedFilename (stem ++ wavPat) = stem ++ denoisedRep := by
  unfold denoisedFilename
  exact pyReplaceGo_append_wav stem h _ (by simp [wavPat])

/-- The spec's insert-before-the-extension path for a `".wav"` name: the
last dot of `stem ++ ".wav"` is the extension dot, so `_denoised` lands
between the stem and `".wav"`. -/
theorem insertBeforeExt_wav (stem : List Char) :
    insertBeforeExt (stem ++ wavPat) = stem ++ denoisedRep := by
  have hmem : '.' ∈ stem ++ wavPat :=
    List.mem_append.mpr (Or.inr (by decide))
  have hrev : (stem ++ wavPat).reverse = 'v' :: 'a' :: 'w' :: '.' :: stem.reverse := by
    simp [wavPat, List.reverse_append]
  have hidx : (stem ++ wavPat).reverse.indexOf '.' = 3 := by
    rw [hrev, List.indexOf_cons_ne _ (by decide),
      List.indexOf_cons_ne _ (by decide), List.indexOf_cons_ne _ (by decide),
      List.indexOf_cons_self]
  have hdot : (stem ++ wavPat).length - 1 - (stem ++ wavPat).reverse.indexOf '.'
      = stem.length := by
    rw [hidx, List.length_append, show (wavPat : List Char).length = 4 from rfl]
    omega
  simp only [insertBeforeExt, if_pos hmem, hdot]
  rw [List.take_left' rfl, List.drop_left' rfl, List.append_assoc]
  rw [show "_denoised".toList ++ wavPat = denoisedRep from by decide]

/-- Counterexample to claim C7 as stated: for the recording filename
`"a.wav.wav"` the code's global `str.replace` produces
`"a_denoised.wav_denoised.wav"`, not the spec's insert-before-the-
extension path `"a.wav_denoised.wav"` — the claim does not hold for every
recording filename. -/
theorem postpass_name_claim_cex :
    (recordPostPass ("a.wav.wav".toList)).target ≠
      insertBeforeExt ("a.wav.wav".toList) := by
  decide

/-- Claim C7 (amended): for every recording filename in which `".wav"`
occurs exactly once, namely as the final extension (`stem ++ ".wav"` with
no occurrence in the stem), the denoised output path equals the filename
with `_denoised` inserted before the extension, and the denoised file is
always written with the fixed `PCM_16` subtype.  (In general the code
replaces every occurrence of `".wav"`, not only the final extension; see
the counterexample.) -/
theorem postpass_suffix_name (stem : List Char)
    (h : occursWav stem = false) :
    (recordPostPass (stem ++ wavPat)).target = insertBeforeExt (stem ++ wavPat) ∧
    insertBeforeExt (stem ++ wavPat) = stem ++ "_denoised.wav".toList ∧
    (recordPostPass (stem ++ wavPat)).subtype = "PCM_16" := by
  have h1 := denoisedFilename_suffix stem h
  have h2 := insertBeforeExt_wav stem
  refine ⟨?_, ?_, rfl⟩
  · show denoisedFilename (stem ++ wavPat) = _
    rw [h1, h2]
  · rw [h2]
    rfl

/-- Witness for claim C7's amended theorem at the concrete filename
`"rec.wav"`. -/
theorem postpass_suffix_name_wit :
    (recordPostPass ("rec".toList ++ wavPat)).target =
      insertBeforeExt ("rec".toList ++ wavPat) ∧
    insertBeforeExt ("rec".toList ++ wavPat) =
      "rec".toList ++ "_denoised.wav".toList ∧
    (recordPostPass ("rec".toList ++ wavPat)).subtype = "PCM_16" :=
  postpass_suffix_name ("rec".toList) (by decide)

/-- Replacement is the identity on a string in which the pattern does not
occur. -/
theorem pyReplaceGo_no_occ :
    ∀ (s : List Char) (fuel : ℕ), occursWav s = false →
      pyReplaceGo fuel s = s := by
  intro s
  induction s with
  | nil => intro fuel _; exact pyReplaceGo_nil fuel
  | cons c rest ih =>
      intro fuel h
      simp only [occursWav, Bool.or_eq_false_iff] at h
      cases fuel with
      | zero => rfl
      | succ n =>
          simp only [pyReplaceGo]
          rw [if_neg (by simp [h.1]), ih n h.2]

/-- Claim C10: the denoised path is the recording filename with every
occurrence of `".wav"` globally substituted; in particular, for every
recording filename that contains no `".wav"` at all, the derived path
equals the original filename, so the post-pass opens the original
recording for writing (truncating it) and overwrites it with the denoised
audio. -/
theorem denoise_overwrites_original (f : List Char)
    (h : occursWav f = false) :
    (recordPostPass f).target = f := by
  show denoisedFilename f = f
  exact pyReplaceGo_no_occ f f.length h

/-- Witness for claim C10 at the concrete filename `"delme_rec.raw"`
(no `".wav"` substring): the post-pass write targets the original
recording itself. -/
theorem denoise_overwrites_original_wit :
    (recordPostPass ("delme_rec.raw".toList)).target = "delme_rec.raw".toList :=
  denoise_overwrites_original _ (by decide)

/-- Counterexample to claim C9 as stated: the identifier `"mic"` matches
both enumerated devices `"Mic"` and `"Mic Pro"` (match count 2), yet the
selector does not fail with the multiple-match error — it silently
resolves to device 0, because the identifier equals the full name of
exactly one matching device (the case-insensitive exact-name tie-break of
`sounddevice`). -/
theorem device_multi_claim_cex :
    matchCount "mic" [⟨"Mic", "Core Audio"⟩, ⟨"Mic Pro", "Core Audio"⟩] = 2 ∧
    getDeviceId "mic" [⟨"Mic", "Core Audio"⟩, ⟨"Mic Pro", "Core Audio"⟩] =
      .found 0 := by
  decide

/-- Claim C9 (amended): a name-substring device identifier matching
exactly one enumerated device resolves to that device; matching zero
devices fails with the not-found error; matching more than one device
fails with the multiple-match error — unless the identifier equals the
full name of exactly one matching device (case-insensitively), in which
case that device is returned instead of an error. -/
theorem device_matching_cases (qs : String) (devs : List SDDevice) :
    (matched qs devs = [] → getDeviceId qs devs = .errNotFound) ∧
    (∀ p : ℕ × SDDevice, matched qs devs = [p] →
      getDeviceId qs devs = .found p.1) ∧
    (2 ≤ matchCount qs devs →
      (∀ p : ℕ × SDDevice, matchedExact qs devs = [p] →
        getDeviceId qs devs = .found p.1) ∧
      ((matchedExact qs devs).length ≠ 1 →
        getDeviceId qs devs = .errMultiple)) := by
  refine ⟨?_, ?_, ?_⟩
  · intro h
    simp [getDeviceId, h]
  · intro p h
    simp [getDeviceId, h]
  · intro h2
    obtain ⟨x, y, rest, hm⟩ : ∃ x y rest, matched qs devs = x :: y :: rest := by
      rcases hml : matched qs devs with _ | ⟨x, _ | ⟨y, rest⟩⟩
      · simp [matchCount, hml] at h2
      · simp [matchCount, hml] at h2
      · exact ⟨x, y, rest, rfl⟩
    constructor
    · intro p hp
      simp [getDeviceId, hm, hp]
    · intro hne
      rcases he : matchedExact qs devs with _ | ⟨e, _ | ⟨e2, rest2⟩⟩
      · simp [getDeviceId, hm, he]
      · exact absurd (by simp [he]) hne
      · simp [getDeviceId, hm, he]

/-- Witness for claim C9's amended theorem: the identifier `"usb"`
uniquely matches the single device `"USB Mic"` and resolves to it, while
`"zzz"` matches nothing and fails with the not-found error. -/
theorem device_matching_cases_wit :
    getDeviceId "usb" [⟨"USB Mic", "ALSA"⟩] = .found 0 ∧
    getDeviceId "zzz" [⟨"USB Mic", "ALSA"⟩] = .errNotFound :=
  ⟨(device_matching_cases "usb" [⟨"USB Mic", "ALSA"⟩]).2.1
      (0, ⟨"USB Mic", "ALSA"⟩) (by decide),
    (device_matching_cases "zzz" [⟨"USB Mic", "ALSA"⟩]).1 (by decide)⟩
